import Mathlib

/-!
Verification of the PlantUML editor's rendering-engine supervisor and local
HTTP bridge (`src/electron/main.js`), and of the hex URL encoder
(`src/components/Preview.tsx`).

The JavaScript service is embedded as an explicit state machine:
`SvcState` carries the fields of `PlantUMLService` (`process` as a Boolean
`running` flag, `queue` as a list of request identifiers, `buffer` as a list
of characters) plus bookkeeping for JavaScript timers (`armed`: identifiers
whose `setTimeout` has neither fired nor been cleared) and a fresh-identifier
counter.  Each asynchronous callback of the source becomes one transition of
`step`; a transition reports the promise settlements it performs (list of
`(id, Outcome)`) and the strings it writes to the engine's stdin.
-/

namespace PlantUML

/-- The frame delimiter scanned for by `processBuffer`: the string
literal `'</svg>'` in `main.js`. -/
def svgDelim : List Char := "</svg>".data

/-- One scan of `processBuffer`'s body: `buffer.indexOf(delimiter)` followed by
the two `substring` calls.  Returns the frame up to and including the first
occurrence of `pat`, together with the rest, or `none` when `pat` does not
occur. -/
def splitAtDelim (pat : List Char) : List Char → Option (List Char × List Char)
  | [] => none
  | c :: cs =>
    if pat.isPrefixOf (c :: cs) then
      some (pat, (c :: cs).drop pat.length)
    else
      match splitAtDelim pat cs with
      | some (f, r) => some (c :: f, r)
      | none => none

theorem isPrefixOfIff {l1 l2 : List Char} : l1.isPrefixOf l2 = true ↔ l1 <+: l2 :=
  List.isPrefixOf_iff_prefix

theorem splitAtDelim_length_le {pat l f r : List Char}
    (h : splitAtDelim pat l = some (f, r)) : pat.length ≤ l.length := by
  induction l generalizing f r with
  | nil => simp [splitAtDelim] at h
  | cons c cs ih =>
    simp only [splitAtDelim] at h
    split at h
    · exact List.IsPrefix.length_le (isPrefixOfIff.mp (by assumption))
    · cases hrec : splitAtDelim pat cs with
      | none => rw [hrec] at h; exact absurd h (by simp)
      | some p =>
        obtain ⟨f', r'⟩ := p
        exact Nat.le_succ_of_le (ih hrec)

theorem splitAtDelim_append {pat l f r : List Char} (s : List Char)
    (h : splitAtDelim pat l = some (f, r)) :
    splitAtDelim pat (l ++ s) = some (f, r ++ s) := by
  induction l generalizing f r with
  | nil => simp [splitAtDelim] at h
  | cons c cs ih =>
    rw [List.cons_append]
    simp only [splitAtDelim] at h ⊢
    by_cases hp : pat.isPrefixOf (c :: cs)
    · rw [if_pos hp] at h
      simp only [Option.some.injEq, Prod.mk.injEq] at h
      obtain ⟨hf, hr⟩ := h
      have hp' : pat.isPrefixOf (c :: (cs ++ s)) := by
        rw [← List.cons_append]
        exact isPrefixOfIff.mpr
          ((isPrefixOfIff.mp hp).trans (List.prefix_append _ _))
      have hlen : pat.length ≤ (c :: cs).length :=
        List.IsPrefix.length_le (isPrefixOfIff.mp hp)
      rw [if_pos hp', ← hf, ← hr, ← List.cons_append,
        List.drop_append_of_le_length hlen]
    · rw [if_neg hp] at h
      cases hrec : splitAtDelim pat cs with
      | none => rw [hrec] at h; exact absurd h (by simp)
      | some p =>
        obtain ⟨f', r'⟩ := p
        rw [hrec] at h
        simp only [Option.some.injEq, Prod.mk.injEq] at h
        obtain ⟨hf, hr⟩ := h
        have hlen : pat.length ≤ (c :: cs).length :=
          Nat.le_succ_of_le (splitAtDelim_length_le hrec)
        have hp2 : ¬ pat.isPrefixOf (c :: (cs ++ s)) := by
          intro hcon
          apply hp
          have hpre := isPrefixOfIff.mp hcon
          rw [← List.cons_append] at hpre
          have htake := List.prefix_iff_eq_take.mp hpre
          rw [List.take_append_of_le_length hlen] at htake
          exact isPrefixOfIff.mpr
            (htake ▸ List.take_prefix _ _)
        rw [if_neg hp2, ih hrec, ← hf, ← hr]

theorem splitAtDelim_decomp {pat l f r : List Char}
    (h : splitAtDelim pat l = some (f, r)) : f ++ r = l := by
  induction l generalizing f r with
  | nil => simp [splitAtDelim] at h
  | cons c cs ih =>
    simp only [splitAtDelim] at h
    split at h
    · simp only [Option.some.injEq, Prod.mk.injEq] at h
      obtain ⟨hf, hr⟩ := h
      rw [← hf, ← hr]
      exact List.prefix_iff_eq_append.mp
        (isPrefixOfIff.mp (by assumption))
    · cases hrec : splitAtDelim pat cs with
      | none => rw [hrec] at h; exact absurd h (by simp)
      | some p =>
        obtain ⟨f', r'⟩ := p
        rw [hrec] at h
        simp only [Option.some.injEq, Prod.mk.injEq] at h
        obtain ⟨hf, hr⟩ := h
        rw [← hf, ← hr, List.cons_append, ih hrec]

theorem splitAtDelim_suffix {pat l f r : List Char}
    (h : splitAtDelim pat l = some (f, r)) : pat <:+ f := by
  induction l generalizing f r with
  | nil => simp [splitAtDelim] at h
  | cons c cs ih =>
    simp only [splitAtDelim] at h
    split at h
    · simp only [Option.some.injEq, Prod.mk.injEq] at h
      exact h.1 ▸ List.suffix_refl pat
    · cases hrec : splitAtDelim pat cs with
      | none => rw [hrec] at h; exact absurd h (by simp)
      | some p =>
        obtain ⟨f', r'⟩ := p
        rw [hrec] at h
        simp only [Option.some.injEq, Prod.mk.injEq] at h
        exact h.1 ▸ (ih hrec).trans (List.suffix_cons _ _)

theorem splitAtDelim_first {pat l f r : List Char}
    (h : splitAtDelim pat l = some (f, r)) :
    ∀ i, i + pat.length < f.length → ¬ pat <+: l.drop i := by
  induction l generalizing f r with
  | nil => simp [splitAtDelim] at h
  | cons c cs ih =>
    simp only [splitAtDelim] at h
    split at h
    · simp only [Option.some.injEq, Prod.mk.injEq] at h
      intro i hi
      rw [← h.1] at hi
      omega
    · cases hrec : splitAtDelim pat cs with
      | none => rw [hrec] at h; exact absurd h (by simp)
      | some p =>
        obtain ⟨f', r'⟩ := p
        rw [hrec] at h
        simp only [Option.some.injEq, Prod.mk.injEq] at h
        intro i hi
        match i with
        | 0 =>
          intro hcon
          exact absurd (isPrefixOfIff.mpr (by simpa using hcon))
            (by assumption)
        | i + 1 =>
          rw [List.drop_succ_cons]
          refine ih hrec i ?_
          rw [← h.1] at hi
          simp only [List.length_cons] at hi
          omega

theorem splitAtDelim_none_iff {pat : List Char} (hpat : pat ≠ []) (l : List Char) :
    splitAtDelim pat l = none ↔ ∀ i, ¬ pat <+: l.drop i := by
  induction l with
  | nil =>
    simp only [splitAtDelim, List.drop_nil, true_iff]
    intro i hcon
    exact hpat (List.prefix_nil.mp hcon)
  | cons c cs ih =>
    simp only [splitAtDelim]
    constructor
    · intro h i
      split at h
      · exact absurd h (by simp)
      · cases hrec : splitAtDelim pat cs with
        | some p => obtain ⟨f', r'⟩ := p; rw [hrec] at h; exact absurd h (by simp)
        | none =>
          match i with
          | 0 =>
            intro hcon
            exact absurd (isPrefixOfIff.mpr (by simpa using hcon))
              (by assumption)
          | i + 1 =>
            rw [List.drop_succ_cons]
            exact (ih.mp hrec) i
    · intro hall
      have h0 : ¬ pat.isPrefixOf (c :: cs) := fun hcon =>
        hall 0 (by simpa using isPrefixOfIff.mp hcon)
      rw [if_neg h0]
      have : splitAtDelim pat cs = none :=
        ih.mpr (fun i => by simpa using hall (i + 1))
      rw [this]

theorem splitAtDelim_length_lt {pat l f r : List Char} (hpat : pat ≠ [])
    (h : splitAtDelim pat l = some (f, r)) : r.length < l.length := by
  have hd := splitAtDelim_decomp h
  have hs := splitAtDelim_suffix h
  have h1 : 0 < pat.length := List.length_pos.mpr hpat
  have h2 : pat.length ≤ f.length := List.IsSuffix.length_le hs
  have h3 : f.length + r.length = l.length := by
    rw [← hd, List.length_append]
  omega

theorem svgDelim_ne_nil : svgDelim ≠ [] := by decide

/-- Fuel-indexed worker for the loop of `processBuffer`.  One unit of fuel is
spent per extracted frame; since every frame is nonempty, `buf.length` units
always suffice. -/
def extractAllGo : Nat → List Char → List (List Char) × List Char
  | 0, buf => ([], buf)
  | fuel + 1, buf =>
    match splitAtDelim svgDelim buf with
    | none => ([], buf)
    | some (f, r) =>
      let p := extractAllGo fuel r
      (f :: p.1, p.2)

/-- The loop of `processBuffer`: repeatedly extract complete frames from the
accumulated buffer until the delimiter no longer occurs, returning the frames
in extraction order together with the leftover (partial) buffer contents. -/
def extractAll (buf : List Char) : List (List Char) × List Char :=
  extractAllGo buf.length buf

theorem extractAllGo_fuel {i j : Nat} {buf : List Char}
    (h1 : buf.length ≤ i) (h2 : buf.length ≤ j) :
    extractAllGo i buf = extractAllGo j buf := by
  induction i generalizing j buf with
  | zero =>
    have hb : buf = [] := List.length_eq_zero.mp (Nat.le_zero.mp h1)
    subst hb
    cases j with
    | zero => rfl
    | succ j => simp [extractAllGo, splitAtDelim]
  | succ i ih =>
    cases j with
    | zero =>
      have hb : buf = [] := List.length_eq_zero.mp (Nat.le_zero.mp h2)
      subst hb
      simp [extractAllGo, splitAtDelim]
    | succ j =>
      simp only [extractAllGo]
      cases hsp : splitAtDelim svgDelim buf with
      | none => rfl
      | some p =>
        obtain ⟨f, r⟩ := p
        have hlt : r.length < buf.length :=
          splitAtDelim_length_lt svgDelim_ne_nil hsp
        simp only
        rw [ih (j := j) (by omega) (by omega)]

theorem extractAll_of_none {buf : List Char}
    (h : splitAtDelim svgDelim buf = none) : extractAll buf = ([], buf) := by
  rw [extractAll]
  cases hl : buf.length with
  | zero => rfl
  | succ m => simp [extractAllGo, h]

theorem extractAll_of_some {buf f r : List Char}
    (h : splitAtDelim svgDelim buf = some (f, r)) :
    extractAll buf = (f :: (extractAll r).1, (extractAll r).2) := by
  have hlt : r.length < buf.length := splitAtDelim_length_lt svgDelim_ne_nil h
  rw [extractAll, extractAll]
  cases hl : buf.length with
  | zero => omega
  | succ m =>
    simp only [extractAllGo, h]
    rw [extractAllGo_fuel (j := r.length) (by omega) (by omega)]

theorem extractAll_rest_none_aux (n : Nat) :
    ∀ buf : List Char, buf.length ≤ n →
      splitAtDelim svgDelim (extractAll buf).2 = none := by
  induction n with
  | zero =>
    intro buf hb
    have : buf = [] := List.length_eq_zero.mp (Nat.le_zero.mp hb)
    subst this
    rfl
  | succ n ih =>
    intro buf hb
    cases hsp : splitAtDelim svgDelim buf with
    | none => rw [extractAll_of_none hsp]; exact hsp
    | some p =>
      obtain ⟨f, r⟩ := p
      have hlt : r.length < buf.length :=
        splitAtDelim_length_lt svgDelim_ne_nil hsp
      rw [extractAll_of_some hsp]
      exact ih r (by omega)

theorem extractAll_rest_none (buf : List Char) :
    splitAtDelim svgDelim (extractAll buf).2 = none :=
  extractAll_rest_none_aux buf.length buf (Nat.le_refl _)

theorem extractAll_append_aux (n : Nat) :
    ∀ b c : List Char, b.length ≤ n →
      extractAll (b ++ c) =
        ((extractAll b).1 ++ (extractAll ((extractAll b).2 ++ c)).1,
         (extractAll ((extractAll b).2 ++ c)).2) := by
  induction n with
  | zero =>
    intro b c hb
    have : b = [] := List.length_eq_zero.mp (Nat.le_zero.mp hb)
    subst this
    simp [extractAll, extractAllGo]
  | succ n ih =>
    intro b c hb
    cases hsp : splitAtDelim svgDelim b with
    | none => rw [extractAll_of_none hsp]; simp
    | some p =>
      obtain ⟨f, r⟩ := p
      have hlt : r.length < b.length :=
        splitAtDelim_length_lt svgDelim_ne_nil hsp
      rw [extractAll_of_some (splitAtDelim_append c hsp), extractAll_of_some hsp,
        ih r c (by omega)]
      simp

theorem extractAll_append (b c : List Char) :
    extractAll (b ++ c) =
      ((extractAll b).1 ++ (extractAll ((extractAll b).2 ++ c)).1,
       (extractAll ((extractAll b).2 ++ c)).2) :=
  extractAll_append_aux b.length b c (Nat.le_refl _)

/-- A complete frame as the decoder understands it: the delimiter occurs and
its first occurrence ends exactly at the end of the string. -/
def CompleteFrame (f : List Char) : Prop :=
  splitAtDelim svgDelim f = some (f, [])

instance (f : List Char) : Decidable (CompleteFrame f) := by
  unfold CompleteFrame; infer_instance

theorem extractAll_frames_then_rest {fs : List (List Char)} {p : List Char}
    (hfs : ∀ f ∈ fs, CompleteFrame f)
    (hp : splitAtDelim svgDelim p = none) :
    extractAll (fs.flatten ++ p) = (fs, p) := by
  induction fs with
  | nil => simpa using extractAll_of_none hp
  | cons f fs ih =>
    have hf : CompleteFrame f := hfs f (by simp)
    have hsplit : splitAtDelim svgDelim (f ++ (fs.flatten ++ p)) =
        some (f, fs.flatten ++ p) := by
      simpa using splitAtDelim_append (fs.flatten ++ p) hf
    rw [List.flatten_cons, List.append_assoc, extractAll_of_some hsplit,
      ih (fun g hg => hfs g (by simp [hg]))]

/-- Substring test: does `pat` occur contiguously inside `l`?  Mirrors the
substring semantics of a JavaScript regular-expression literal made of plain
alternatives. -/
def hasSub (pat : List Char) : List Char → Bool
  | [] => pat.isEmpty
  | c :: cs => pat.isPrefixOf (c :: cs) || hasSub pat cs

/-- ASCII lower-casing, the case folding a JavaScript `/i` regular expression
applies to the ASCII-only terminator patterns. -/
def asciiLower (c : Char) : Char :=
  if 'A' ≤ c ∧ c ≤ 'Z' then Char.ofNat (c.toNat + 32) else c

/-- The nine alternatives of the `hasEndTag` regular expression in
`generateSvg`. -/
def endTagPatterns : List (List Char) :=
  ["@enduml".data, "@endmindmap".data, "@endwbs".data, "@endgantt".data,
   "@endsalt".data, "@endjson".data, "@endyaml".data, "@endmath".data,
   "@endlatex".data]

/-- The completeness check of `generateSvg`: the case-insensitive test
`/@enduml|@endmindmap|@endwbs|@endgantt|@endsalt|@endjson|@endyaml|@endmath|@endlatex/i.test(pumlCode)`. -/
def hasEndTag (code : List Char) : Bool :=
  endTagPatterns.any (fun pat => hasSub pat (code.map asciiLower))

/-- The synthetic placeholder returned by `generateSvg` for incomplete
source text, verbatim from `main.js`. -/
def placeholderSvg : List Char :=
  ("<svg xmlns=\"http://www.w3.org/2000/svg\" width=\"200\" height=\"60\">" ++
   "<text x=\"10\" y=\"40\" font-family=\"sans-serif\" font-size=\"14\" " ++
   "fill=\"#888\">...</text></svg>").data

/-- The errors with which the service settles a promise rejection. -/
inductive ErrKind where
  | binaryMissing
  | processClosed
  | renderTimeout
  | writeFailed
  deriving DecidableEq, Repr

/-- The settlement of a caller-visible promise. -/
inductive Outcome where
  | resolved (svg : List Char)
  | rejected (e : ErrKind)
  deriving DecidableEq, Repr

/-- State of the `PlantUMLService` singleton.  `running` stands for
`this.process !== null`; `queue` holds the identifiers of the pending entries
in order; `buffer` is `this.buffer`; `armed` records the identifiers whose
10-second `setTimeout` has neither fired nor been cleared (JavaScript timers
survive `stop()`, which never calls `clearTimeout`); `nextId` numbers the
submissions. -/
structure SvcState where
  running : Bool
  queue : List Nat
  buffer : List Char
  armed : List Nat
  nextId : Nat
  deriving DecidableEq, Repr

/-- The initial state: no process, empty queue and buffer. -/
def initState : SvcState :=
  { running := false, queue := [], buffer := [], armed := [], nextId := 0 }

/-- The body of `stop()`: kill the process if any, null the handle, and clear
queue and buffer.  No pending entry is rejected and no timer is cleared. -/
def stopFn (s : SvcState) : SvcState :=
  { s with running := false, queue := [], buffer := [] }

/-- The events driving the service: a `generateSvg` call (with a flag telling
whether the `stdin.write` succeeds), a stdout `data` chunk, the firing of the
10-second timer of request `id`, the process `close` event, and an external
`stop()` call. -/
inductive Event where
  | submit (code : List Char) (writeOk : Bool)
  | data (chunk : List Char)
  | timerFire (id : Nat)
  | closed
  | stopCmd
  deriving DecidableEq, Repr

/-- Deliver extracted frames against the queue, as the `while` loop of
`processBuffer` does: each frame pops the head entry, clears its timer and
resolves it; a frame arriving on an empty queue is dropped. -/
def deliver : List (List Char) → List Nat → List Nat →
    List Nat × List Nat × List (Nat × Outcome)
  | [], q, a => (q, a, [])
  | _ :: fs, [], a => deliver fs [] a
  | f :: fs, id :: q, a =>
    let p := deliver fs q (a.erase id)
    (p.1, p.2.1, (id, Outcome.resolved f) :: p.2.2)

/-- One transition of the service.  `jar` tells whether the engine artifact
exists (`fs.existsSync(jarPath)`).  Returns the successor state, the promise
settlements performed during the transition in order, and the strings written
to the engine's stdin. -/
def step (jar : Bool) (s : SvcState) :
    Event → SvcState × List (Nat × Outcome) × List (List Char)
  | Event.submit code writeOk =>
    let id := s.nextId
    -- if (!this.process) try { this.start() } catch (e) { return reject(e) }
    -- start() first runs stop(), then checks the jar, then spawns.
    if s.running then
      stepSubmit s id code writeOk
    else
      let s1 := stopFn s
      if jar then
        stepSubmit { s1 with running := true } id code writeOk
      else
        ({ s1 with nextId := id + 1 },
         [(id, Outcome.rejected ErrKind.binaryMissing)], [])
  | Event.data chunk =>
    let p := extractAll (s.buffer ++ chunk)
    let d := deliver p.1 s.queue s.armed
    ({ s with buffer := p.2, queue := d.1, armed := d.2.1 }, d.2.2, [])
  | Event.timerFire id =>
    if id ∈ s.armed then
      let a := s.armed.erase id
      -- splice self out of the queue, then restart() = stop(); start()
      let s1 := stopFn { s with queue := s.queue.erase id, armed := a }
      if jar then
        ({ s1 with running := true },
         [(id, Outcome.rejected ErrKind.renderTimeout)], [])
      else
        -- start() throws inside the timer callback: the rejection after
        -- this.restart() is never reached.
        (s1, [], [])
    else
      (s, [], [])
  | Event.closed =>
    ({ s with running := false, queue := [] },
     s.queue.map (fun id => (id, Outcome.rejected ErrKind.processClosed)), [])
  | Event.stopCmd =>
    (stopFn s, [], [])
where
  /-- The part of `generateSvg` after the process is known to be live: the
  completeness check, the enqueue, and the stdin write. -/
  stepSubmit (s : SvcState) (id : Nat) (code : List Char)
      (writeOk : Bool) : SvcState × List (Nat × Outcome) × List (List Char) :=
    if hasEndTag code then
      let s1 := { s with queue := s.queue ++ [id], armed := s.armed ++ [id],
                         nextId := id + 1 }
      if writeOk then
        (s1, [], [code ++ ['\n']])
      else
        ({ s1 with armed := s1.armed.erase id },
         [(id, Outcome.rejected ErrKind.writeFailed)], [])
    else
      ({ s with nextId := id + 1 }, [(id, Outcome.resolved placeholderSvg)], [])

/-- Run a list of events from a state, concatenating settlements and writes in
chronological order. -/
def run (jar : Bool) (s : SvcState) :
    List Event → SvcState × List (Nat × Outcome) × List (List Char)
  | [] => (s, [], [])
  | e :: es =>
    let p := step jar s e
    let q := run jar p.1 es
    (q.1, p.2.1 ++ q.2.1, p.2.2 ++ q.2.2)

/-- The settlement a caller with identifier `id` observes: a JavaScript promise
keeps its first settlement, later `resolve`/`reject` calls are ignored. -/
def settle (outs : List (Nat × Outcome)) (id : Nat) : Option Outcome :=
  (outs.find? (fun p => p.1 == id)).map Prod.snd

/-- An event of a failure-free, well-formed trace: a submission of terminated
source whose write succeeds, or the arrival of engine output. -/
def goodEvent : Event → Prop
  | Event.submit code writeOk => hasEndTag code = true ∧ writeOk = true
  | Event.data _ => True
  | _ => False

/-- Number of `generateSvg` calls in a trace. -/
def subCount : List Event → Nat
  | [] => 0
  | Event.submit _ _ :: es => subCount es + 1
  | _ :: es => subCount es

/-- Concatenation of all engine output delivered in a trace. -/
def dataCat : List Event → List Char
  | [] => []
  | Event.data ch :: es => ch ++ dataCat es
  | _ :: es => dataCat es

/-- Number of complete frames contained in a byte sequence. -/
def framesCnt (buf : List Char) : Nat := (extractAll buf).1.length

theorem deliver_eq {F : List (List Char)} {q a : List Nat}
    (h : F.length ≤ q.length) :
    (deliver F q a).1 = q.drop F.length ∧
    (deliver F q a).2.2 =
      List.zipWith (fun id f => (id, Outcome.resolved f)) (q.take F.length) F := by
  induction F generalizing q a with
  | nil => simp [deliver]
  | cons f fs ih =>
    cases q with
    | nil => simp at h
    | cons id q =>
      simp only [List.length_cons, Nat.add_le_add_iff_right] at h
      obtain ⟨h1, h2⟩ := ih (q := q) (a := a.erase id) h
      refine ⟨?_, ?_⟩
      · simpa [deliver] using h1
      · simpa [deliver, List.zipWith] using h2

theorem range'_take {r m j : Nat} (h : j ≤ m) :
    (List.range' r m).take j = List.range' r j := by
  have hsplit : List.range' r m = List.range' r j ++ List.range' (r + j) (m - j) := by
    rw [List.range'_append_1]
    congr 1
    omega
  rw [hsplit, List.take_left' (List.length_range' ..)]

theorem range'_drop {r m j : Nat} (h : j ≤ m) :
    (List.range' r m).drop j = List.range' (r + j) (m - j) := by
  have hsplit : List.range' r m = List.range' r j ++ List.range' (r + j) (m - j) := by
    rw [List.range'_append_1]
    congr 1
    omega
  rw [hsplit, List.drop_left' (List.length_range' ..)]

/-- Intermediate state of a failure-free run: requests `r, r+1, ..., n-1`
pending in order, fresh identifier `n`, a frame-free buffer. -/
def midState (r n : Nat) (buf : List Char) (a : List Nat) : SvcState :=
  { running := true, queue := List.range' r (n - r), buffer := buf,
    armed := a, nextId := n }

theorem run_fifo_aux {t : List Event} {r n : Nat} {v : List Char} {a : List Nat}
    (hgood : ∀ e ∈ t, goodEvent e) (hrn : r ≤ n)
    (hbuf : splitAtDelim svgDelim v = none)
    (hpre : ∀ k, framesCnt (v ++ dataCat (t.take k)) ≤
      (n - r) + subCount (t.take k)) :
    (run true (midState r n v a) t).2.1 =
      List.zipWith (fun i f => (i, Outcome.resolved f))
        (List.range' r (extractAll (v ++ dataCat t)).1.length)
        (extractAll (v ++ dataCat t)).1 ∧
    (run true (midState r n v a) t).1.queue =
      List.range' (r + (extractAll (v ++ dataCat t)).1.length)
        (n + subCount t - (r + (extractAll (v ++ dataCat t)).1.length)) ∧
    (run true (midState r n v a) t).1.buffer = (extractAll (v ++ dataCat t)).2 ∧
    (run true (midState r n v a) t).1.nextId = n + subCount t ∧
    (run true (midState r n v a) t).1.running = true := by
  induction t generalizing r n v a with
  | nil =>
    rw [show dataCat [] = [] from rfl, List.append_nil, extractAll_of_none hbuf]
    simp [run, subCount, midState]
  | cons e es ih =>
    match e with
    | Event.submit code writeOk =>
      have hg := hgood (Event.submit code writeOk) (by simp)
      simp only [goodEvent] at hg
      obtain ⟨hend, hwk⟩ := hg
      subst hwk
      have hstep : step true (midState r n v a) (Event.submit code true) =
          (midState r (n + 1) v (a ++ [n]), [], [code ++ ['\n']]) := by
        simp only [midState, step, step.stepSubmit, if_pos rfl, hend, if_true]
        have hq : List.range' r (n - r) ++ [n] = List.range' r (n + 1 - r) := by
          have h2 : List.range' r (n - r) ++ List.range' (r + (n - r)) 1 =
              List.range' r (1 + (n - r)) := List.range'_append_1 ..
          rw [show r + (n - r) = n by omega, List.range'_one] at h2
          rw [h2]
          congr 1
          omega
        simp [hq]
      have hpre2 : ∀ k, framesCnt (v ++ dataCat (es.take k)) ≤
          (n + 1 - r) + subCount (es.take k) := by
        intro k
        have := hpre (k + 1)
        simp only [List.take_succ_cons, dataCat, subCount] at this
        omega
      have hmain := ih (r := r) (n := n + 1) (a := a ++ [n])
        (fun e he => hgood e (by simp [he])) (by omega) hbuf hpre2
      have hcat : dataCat (Event.submit code true :: es) = dataCat es := rfl
      have hsub : subCount (Event.submit code true :: es) = subCount es + 1 := rfl
      simp only [run, hstep, hcat, hsub]
      refine ⟨by simpa using hmain.1, ?_, by simpa using hmain.2.2.1, ?_,
        by simpa using hmain.2.2.2.2⟩
      · rw [show (n + (subCount es + 1)) = (n + 1) + subCount es by omega]
        simpa using hmain.2.1
      · rw [show (n + (subCount es + 1)) = (n + 1) + subCount es by omega]
        simpa using hmain.2.2.2.1
    | Event.data ch =>
      have hj1 := hpre 1
      simp only [List.take_succ_cons, List.take_zero, dataCat, subCount,
        List.append_nil] at hj1
      set F := (extractAll (v ++ ch)).1 with hF
      set rest := (extractAll (v ++ ch)).2 with hrest
      have hj : F.length ≤ n - r := by
        simpa [framesCnt, ← hF] using hj1
      have hdel := deliver_eq (F := F) (q := List.range' r (n - r)) (a := a)
        (by simpa using hj)
      have hq1 : (deliver F (List.range' r (n - r)) a).1 =
          List.range' (r + F.length) (n - (r + F.length)) := by
        rw [hdel.1, range'_drop hj]
        congr 1
        omega
      have hstep : step true (midState r n v a) (Event.data ch) =
          (midState (r + F.length) n rest
            (deliver F (List.range' r (n - r)) a).2.1,
           (deliver F (List.range' r (n - r)) a).2.2, []) := by
        simp only [midState, step, ← hF, ← hrest]
        rw [hq1]
      have houts : (deliver F (List.range' r (n - r)) a).2.2 =
          List.zipWith (fun id f => (id, Outcome.resolved f))
            (List.range' r F.length) F := by
        rw [hdel.2, range'_take hj]
      have hbuf2 : splitAtDelim svgDelim rest = none := extractAll_rest_none _
      have hpre2 : ∀ k, framesCnt (rest ++ dataCat (es.take k)) ≤
          (n - (r + F.length)) + subCount (es.take k) := by
        intro k
        have hk := hpre (k + 1)
        simp only [List.take_succ_cons, dataCat, subCount] at hk
        rw [show v ++ (ch ++ dataCat (es.take k)) =
          (v ++ ch) ++ dataCat (es.take k) from (List.append_assoc ..).symm] at hk
        have hsplit := extractAll_append (v ++ ch) (dataCat (es.take k))
        have hkey : framesCnt ((v ++ ch) ++ dataCat (es.take k)) =
            F.length + framesCnt (rest ++ dataCat (es.take k)) := by
          unfold framesCnt
          rw [hsplit]
          simp [hF, hrest]
        omega
      have hrn2 : r + F.length ≤ n := by omega
      have hmain := ih (r := r + F.length) (n := n) (v := rest)
        (a := (deliver F (List.range' r (n - r)) a).2.1)
        (fun e he => hgood e (by simp [he])) hrn2 hbuf2 hpre2
      have hcat : dataCat (Event.data ch :: es) = ch ++ dataCat es := rfl
      have hsub : subCount (Event.data ch :: es) = subCount es := rfl
      have hA : extractAll (v ++ (ch ++ dataCat es)) =
          (F ++ (extractAll (rest ++ dataCat es)).1,
           (extractAll (rest ++ dataCat es)).2) := by
        rw [show v ++ (ch ++ dataCat es) = (v ++ ch) ++ dataCat es from
          (List.append_assoc ..).symm, extractAll_append (v ++ ch) (dataCat es),
          ← hF, ← hrest]
      simp only [run, hstep, hcat, hsub, hA]
      have hzip : (deliver F (List.range' r (n - r)) a).2.2 ++
          List.zipWith (fun i f => (i, Outcome.resolved f))
            (List.range' (r + F.length)
              (extractAll (rest ++ dataCat es)).1.length)
            (extractAll (rest ++ dataCat es)).1 =
          List.zipWith (fun i f => (i, Outcome.resolved f))
            (List.range' r (F ++ (extractAll (rest ++ dataCat es)).1).length)
            (F ++ (extractAll (rest ++ dataCat es)).1) := by
        rw [houts, List.length_append, Nat.add_comm F.length,
          ← List.range'_append_1 r F.length (extractAll (rest ++ dataCat es)).1.length,
          List.zipWith_append _ _ _ _ _ (by simp)]
      refine ⟨?_, ?_, ?_, ?_, ?_⟩
      · rw [← hzip]
        congr 1
        exact hmain.1
      · rw [show r + (F ++ (extractAll (rest ++ dataCat es)).1).length =
          (r + F.length) + (extractAll (rest ++ dataCat es)).1.length by
            simp +arith]
        exact hmain.2.1
      · exact hmain.2.2.1
      · exact hmain.2.2.2.1
      · exact hmain.2.2.2.2
    | Event.timerFire id => exact absurd (hgood (Event.timerFire id) (by simp)) (by simp [goodEvent])
    | Event.closed => exact absurd (hgood Event.closed (by simp)) (by simp [goodEvent])
    | Event.stopCmd => exact absurd (hgood Event.stopCmd (by simp)) (by simp [goodEvent])

/-- C1.  FIFO correlation: over any trace made only of well-formed submissions
(terminated source, successful write) and engine output — no timeout, stop or
close event — starting from the idle service, and along which the engine never
emits more frames than requests received so far, the settlements are exactly:
the Ith complete frame extracted from the output buffer resolves the Ith
submitted request, in order; the survivors form the contiguous tail of the
submission order, so no frame is ever delivered to a request other than the
head of the queue. -/
theorem fifo_correlation (c : List Char) (es : List Event)
    (hgood : ∀ e ∈ Event.submit c true :: es, goodEvent e)
    (hpre : ∀ k, framesCnt (dataCat ((Event.submit c true :: es).take k)) ≤
      subCount ((Event.submit c true :: es).take k)) :
    (run true initState (Event.submit c true :: es)).2.1 =
      List.zipWith (fun i f => (i, Outcome.resolved f))
        (List.range (extractAll (dataCat (Event.submit c true :: es))).1.length)
        (extractAll (dataCat (Event.submit c true :: es))).1 ∧
    (run true initState (Event.submit c true :: es)).1.queue =
      List.range' (extractAll (dataCat (Event.submit c true :: es))).1.length
        (subCount (Event.submit c true :: es) -
          (extractAll (dataCat (Event.submit c true :: es))).1.length) := by
  have hg := hgood (Event.submit c true) (by simp)
  simp only [goodEvent] at hg
  have hend : hasEndTag c = true := hg.1
  have hstep : step true initState (Event.submit c true) =
      (midState 0 1 [] [0], [], [c ++ ['\n']]) := by
    simp only [initState, midState, step, step.stepSubmit, hend, if_true]
    rfl
  have hpre2 : ∀ k, framesCnt ([] ++ dataCat (es.take k)) ≤
      (1 - 0) + subCount (es.take k) := by
    intro k
    have := hpre (k + 1)
    simp only [List.take_succ_cons, dataCat, subCount] at this
    simpa using Nat.le_trans this (by omega)
  have hmain := run_fifo_aux (t := es) (r := 0) (n := 1) (v := []) (a := [0])
    (fun e he => hgood e (by simp [he])) (by omega) rfl hpre2
  have hcat : dataCat (Event.submit c true :: es) = dataCat es := rfl
  have hsub : subCount (Event.submit c true :: es) = subCount es + 1 := rfl
  simp only [run, hstep, hcat, hsub, List.nil_append] at hmain ⊢
  refine ⟨?_, ?_⟩
  · rw [List.range_eq_range']
    simpa using hmain.1
  · rw [show subCount es + 1 = 1 + subCount es by omega]
    simpa using hmain.2.1

/-- Witness for C1: two terminated submissions, then the first frame and a
partial second frame in one delivery, then the rest of the second frame. -/
theorem fifo_correlation_witness :
    (∀ e ∈ Event.submit "@startuml\nA -> B\n@enduml".data true ::
        [Event.submit "@startmindmap\n* r\n@endmindmap".data true,
         Event.data "x</svg>y</s".data, Event.data "vg>".data], goodEvent e) ∧
    (run true initState (Event.submit "@startuml\nA -> B\n@enduml".data true ::
        [Event.submit "@startmindmap\n* r\n@endmindmap".data true,
         Event.data "x</svg>y</s".data, Event.data "vg>".data])).2.1 =
      [(0, Outcome.resolved "x</svg>".data),
       (1, Outcome.resolved "y</svg>".data)] := by
  have hg : ∀ e ∈ Event.submit "@startuml\nA -> B\n@enduml".data true ::
      [Event.submit "@startmindmap\n* r\n@endmindmap".data true,
       Event.data "x</svg>y</s".data, Event.data "vg>".data], goodEvent e := by
    intro e he
    fin_cases he <;> simp only [goodEvent] <;> first
    | exact ⟨by decide, rfl⟩
    | trivial
  refine ⟨hg, ?_⟩
  have hp : ∀ k, framesCnt (dataCat
      ((Event.submit "@startuml\nA -> B\n@enduml".data true ::
        [Event.submit "@startmindmap\n* r\n@endmindmap".data true,
         Event.data "x</svg>y</s".data, Event.data "vg>".data]).take k)) ≤
      subCount ((Event.submit "@startuml\nA -> B\n@enduml".data true ::
        [Event.submit "@startmindmap\n* r\n@endmindmap".data true,
         Event.data "x</svg>y</s".data, Event.data "vg>".data]).take k) := by
    intro k
    match k with
    | 0 => decide
    | 1 => decide
    | 2 => decide
    | 3 => decide
    | k + 4 =>
      rw [List.take_of_length_le (by simp)]
      decide
  exact ((fifo_correlation "@startuml\nA -> B\n@enduml".data
    [Event.submit "@startmindmap\n* r\n@endmindmap".data true,
     Event.data "x</svg>y</s".data, Event.data "vg>".data] hg hp).1).trans
    (by decide)

/-- C5.  Frame decoder correctness: (i) a successful extraction step returns a
decomposition of the buffer whose frame ends with the closing marker and
contains no earlier occurrence of it; (ii) the step returns `none` exactly when
the marker is absent; (iii) repeated application to a buffer holding any number
of complete frames followed by a marker-free partial fragment extracts exactly
those frames in order and leaves exactly the fragment. -/
theorem frame_decoder_correct :
    (∀ buf f r : List Char, splitAtDelim svgDelim buf = some (f, r) →
      f ++ r = buf ∧ svgDelim <:+ f ∧
      ∀ i, i + svgDelim.length < f.length → ¬ svgDelim <+: buf.drop i) ∧
    (∀ buf : List Char, splitAtDelim svgDelim buf = none ↔
      ∀ i, ¬ svgDelim <+: buf.drop i) ∧
    (∀ (fs : List (List Char)) (p : List Char), (∀ f ∈ fs, CompleteFrame f) →
      splitAtDelim svgDelim p = none → extractAll (fs.flatten ++ p) = (fs, p)) :=
  ⟨fun _ _ _ h => ⟨splitAtDelim_decomp h, splitAtDelim_suffix h,
      splitAtDelim_first h⟩,
   fun buf => splitAtDelim_none_iff svgDelim_ne_nil buf,
   fun _ _ hfs hp => extractAll_frames_then_rest hfs hp⟩

/-- Witness for C5: two complete frames followed by a partial fragment are
extracted in order, leaving the fragment. -/
theorem frame_decoder_correct_witness :
    (∀ f ∈ ["a</svg>".data, "b</svg>".data], CompleteFrame f) ∧
    splitAtDelim svgDelim "x<".data = none ∧
    extractAll (["a</svg>".data, "b</svg>".data].flatten ++ "x<".data) =
      (["a</svg>".data, "b</svg>".data], "x<".data) :=
  ⟨by decide, by decide,
   frame_decoder_correct.2.2 ["a</svg>".data, "b</svg>".data] "x<".data
     (by decide) (by decide)⟩

/-- C4.  Anti-hang: when the completeness check finds no terminator, a
`generateSvg` call writes nothing to the engine, enqueues nothing, and resolves
immediately with the fixed placeholder (provided the lazy start is not the
failing jar-missing path, which per the submit contract rejects first). -/
theorem antihang (jar : Bool) (s : SvcState) (code : List Char) (writeOk : Bool)
    (hcode : hasEndTag code = false)
    (hok : s.running = true ∨ (jar = true ∧ s.queue = [])) :
    (step jar s (Event.submit code writeOk)).2.2 = [] ∧
    (step jar s (Event.submit code writeOk)).2.1 =
      [(s.nextId, Outcome.resolved placeholderSvg)] ∧
    (step jar s (Event.submit code writeOk)).1.queue = s.queue := by
  cases hrun : s.running with
  | true => simp [step, step.stepSubmit, hrun, hcode]
  | false =>
    rcases hok with h | ⟨hjar, hq⟩
    · rw [hrun] at h; exact absurd h (by simp)
    · subst hjar
      simp [step, step.stepSubmit, hrun, hcode, stopFn, hq]

/-- Witness for C4: unterminated source on the idle service. -/
theorem antihang_witness :
    hasEndTag "@startuml\nA -> B".data = false ∧
    (step true initState (Event.submit "@startuml\nA -> B".data true)).2.2 = [] ∧
    (step true initState (Event.submit "@startuml\nA -> B".data true)).2.1 =
      [(0, Outcome.resolved placeholderSvg)] ∧
    (step true initState (Event.submit "@startuml\nA -> B".data true)).1.queue
      = [] := by
  have h := antihang true initState "@startuml\nA -> B".data true (by decide)
    (Or.inr ⟨rfl, rfl⟩)
  exact ⟨by decide, h.1, h.2.1, h.2.2⟩

/-- C3 counterexample: calling `stop()` with entry `0` pending settles no
promise at all — in particular entry `0` is not rejected with a
`ProcessStopped` error, contrary to the claim. -/
theorem stop_rejects_counterexample :
    (step true { running := true, queue := [0], buffer := [], armed := [0], nextId := 1 } Event.stopCmd).2.1 = [] ∧
    settle (step true { running := true, queue := [0], buffer := [], armed := [0], nextId := 1 } Event.stopCmd).2.1 0 = none := by
  exact ⟨rfl, rfl⟩

/-- C3 amended: `stop()` terminates the process if one is running and leaves
the queue and the buffer empty (a no-op when already stopped with nothing
pending), but it rejects no pending entry — pending entries are discarded
silently and their timers stay armed. -/
theorem stop_postcondition (jar : Bool) (s : SvcState) :
    (step jar s Event.stopCmd).1.running = false ∧
    (step jar s Event.stopCmd).1.queue = [] ∧
    (step jar s Event.stopCmd).1.buffer = [] ∧
    (step jar s Event.stopCmd).1.armed = s.armed ∧
    (step jar s Event.stopCmd).1.nextId = s.nextId ∧
    (step jar s Event.stopCmd).2.1 = [] ∧
    (step jar s Event.stopCmd).2.2 = [] := by
  simp [step, stopFn]

/-- C2 counterexample: requests 0 and 1 are pending; request 0 times out,
restarting the process; a fresh request 2 is submitted after that restart; then
request 1's still-armed stale timer fires, silently wiping request 2 from the
queue and restarting again; request 2's frame is dropped on arrival and
request 2 itself ends rejected with the timeout error — so a fresh request
submitted after the restart does not succeed, contrary to the claim. -/
theorem timeout_claim_counterexample :
    settle (run true initState
      [Event.submit "@enduml".data true, Event.submit "@enduml".data true,
       Event.timerFire 0, Event.submit "@enduml".data true, Event.timerFire 1,
       Event.data "z</svg>".data, Event.timerFire 2]).2.1 2 =
      some (Outcome.rejected ErrKind.renderTimeout) := by
  decide

/-- C2 amended: on timeout of request 0 while 1 and 2 are pending, request 0
is removed and rejected with the timeout error and the process is restarted;
requests 1 and 2 are silently discarded from the queue at that moment (the
restart rejects nothing) and are only rejected with the same timeout error
when their own still-armed timers fire, each forcing another restart; a fresh
request 3 submitted after all stale timers have fired succeeds. -/
theorem timeout_cascade (c1 c2 c3 c4 f : List Char)
    (h1 : hasEndTag c1 = true) (h2 : hasEndTag c2 = true)
    (h3 : hasEndTag c3 = true) (h4 : hasEndTag c4 = true)
    (hf : splitAtDelim svgDelim f = some (f, [])) :
    (run true initState
      [Event.submit c1 true, Event.submit c2 true, Event.submit c3 true,
       Event.timerFire 0, Event.timerFire 1, Event.timerFire 2,
       Event.submit c4 true, Event.data f]).2.1 =
      [(0, Outcome.rejected ErrKind.renderTimeout),
       (1, Outcome.rejected ErrKind.renderTimeout),
       (2, Outcome.rejected ErrKind.renderTimeout),
       (3, Outcome.resolved f)] ∧
    (run true initState
      [Event.submit c1 true, Event.submit c2 true, Event.submit c3 true,
       Event.timerFire 0, Event.timerFire 1, Event.timerFire 2,
       Event.submit c4 true, Event.data f]).1.running = true := by
  have hef : extractAll f = ([f], []) := by
    rw [extractAll_of_some hf]
    rfl
  simp [run, step, step.stepSubmit, stopFn, initState, h1, h2, h3, h4, hef,
    deliver, List.erase, settle]

/-- Witness for C2 (amended) at concrete terminated sources and a concrete
frame. -/
theorem timeout_cascade_witness :
    hasEndTag "@enduml".data = true ∧
    splitAtDelim svgDelim "z</svg>".data = some ("z</svg>".data, []) ∧
    (run true initState
      [Event.submit "@enduml".data true, Event.submit "@enduml".data true,
       Event.submit "@enduml".data true, Event.timerFire 0, Event.timerFire 1,
       Event.timerFire 2, Event.submit "@enduml".data true,
       Event.data "z</svg>".data]).2.1 =
      [(0, Outcome.rejected ErrKind.renderTimeout),
       (1, Outcome.rejected ErrKind.renderTimeout),
       (2, Outcome.rejected ErrKind.renderTimeout),
       (3, Outcome.resolved "z</svg>".data)] :=
  ⟨by decide, by decide,
   (timeout_cascade "@enduml".data "@enduml".data "@enduml".data "@enduml".data
     "z</svg>".data (by decide) (by decide) (by decide) (by decide)
     (by decide)).1⟩

/-- C6.  Process-crash drain: when the process closes while the queue is
pending, every pending entry is rejected with the process-closed error in
queue order and the handle is dropped; a subsequent terminated submission
finds no process, starts a fresh one (clean queue and buffer) and writes to
it. -/
theorem crash_drain (jar : Bool) (s : SvcState) (code : List Char)
    (hrun : s.running = true) (hcode : hasEndTag code = true) :
    (step jar s Event.closed).2.1 =
      s.queue.map (fun id => (id, Outcome.rejected ErrKind.processClosed)) ∧
    (step jar s Event.closed).1.running = false ∧
    (step jar s Event.closed).1.queue = [] ∧
    (step true (step jar s Event.closed).1 (Event.submit code true)).1.running
      = true ∧
    (step true (step jar s Event.closed).1 (Event.submit code true)).1.queue
      = [s.nextId] ∧
    (step true (step jar s Event.closed).1 (Event.submit code true)).1.buffer
      = [] ∧
    (step true (step jar s Event.closed).1 (Event.submit code true)).2.2
      = [code ++ ['\n']] := by
  refine ⟨by simp [step], by simp [step], by simp [step], ?_, ?_, ?_, ?_⟩ <;>
    simp [step, step.stepSubmit, stopFn, hcode]

/-- Witness for C6: two pending requests, a crash, then a fresh submission. -/
theorem crash_drain_witness :
    (step true { running := true, queue := [0, 1], buffer := [], armed := [0, 1], nextId := 2 } Event.closed).2.1 =
      [(0, Outcome.rejected ErrKind.processClosed),
       (1, Outcome.rejected ErrKind.processClosed)] ∧
    (step true (step true { running := true, queue := [0, 1], buffer := [], armed := [0, 1], nextId := 2 } Event.closed).1
      (Event.submit "@enduml".data true)).1.queue = [2] := by
  have h := crash_drain true
    { running := true, queue := [0, 1], buffer := [], armed := [0, 1], nextId := 2 }
    "@enduml".data rfl (by decide)
  exact ⟨h.1, h.2.2.2.2.1⟩

/-- C10.  A failing stdin write after the enqueue rejects the caller with the
write error but leaves the entry in the queue: the next frame is consumed by
that already-settled entry, while the live request submitted after it is
never resolved by it — the correlation shifts. -/
theorem write_error_shifts (s : SvcState) (c1 c2 f : List Char)
    (hrun : s.running = true) (hq : s.queue = []) (hb : s.buffer = [])
    (hc1 : hasEndTag c1 = true) (hc2 : hasEndTag c2 = true)
    (hf : splitAtDelim svgDelim f = some (f, [])) :
    (run true s [Event.submit c1 false, Event.submit c2 true, Event.data f]).2.1
      = [(s.nextId, Outcome.rejected ErrKind.writeFailed),
         (s.nextId, Outcome.resolved f)] ∧
    (run true s [Event.submit c1 false, Event.submit c2 true, Event.data f]).1.queue
      = [s.nextId + 1] ∧
    settle (run true s [Event.submit c1 false, Event.submit c2 true,
        Event.data f]).2.1 s.nextId =
      some (Outcome.rejected ErrKind.writeFailed) ∧
    settle (run true s [Event.submit c1 false, Event.submit c2 true,
        Event.data f]).2.1 (s.nextId + 1) = none := by
  have hef : extractAll f = ([f], []) := by
    rw [extractAll_of_some hf]
    rfl
  have hne : (s.nextId == s.nextId + 1) = false := by
    simp
  simp [run, step, step.stepSubmit, stopFn, hrun, hq, hb, hc1, hc2, hef,
    deliver, settle, List.find?, hne]

/-- Witness for C10 on the idle running service. -/
theorem write_error_shifts_witness :
    (run true { running := true, queue := [], buffer := [], armed := [], nextId := 0 }
      [Event.submit "@enduml".data false, Event.submit "@enduml".data true,
       Event.data "z</svg>".data]).2.1 =
      [(0, Outcome.rejected ErrKind.writeFailed),
       (0, Outcome.resolved "z</svg>".data)] ∧
    settle (run true { running := true, queue := [], buffer := [], armed := [], nextId := 0 }
      [Event.submit "@enduml".data false, Event.submit "@enduml".data true,
       Event.data "z</svg>".data]).2.1 1 = none := by
  have h := write_error_shifts
    { running := true, queue := [], buffer := [], armed := [], nextId := 0 }
    "@enduml".data "@enduml".data "z</svg>".data rfl rfl rfl (by decide)
    (by decide) (by decide)
  exact ⟨h.1, h.2.2.2⟩

/-- The fixed scan range of the `start-local-server` handler. -/
def startPort : Nat := 8080

/-- Upper end of the fixed scan range. -/
def endPort : Nat := 8090

/-- The reply sent on the `local-server-status` channel: success with the
bound port, or one of the three failure messages of the handler (specific
port occupied, whole range occupied, engine jar missing). -/
inductive Reply where
  | ok (port : Nat)
  | errPort (port : Nat)
  | errRange (lo hi : Nat)
  | errJar
  deriving DecidableEq, Repr

/-- The `while (currentPort <= endPort && !started)` loop of the automatic
mode, indexed by the number of remaining iterations; returns the ports
attempted in order together with the reply.  `tryListen` is abstracted by the
occupancy oracle `free`. -/
def scanFrom (free : Nat → Bool) (cur : Nat) : Nat → List Nat × Reply
  | 0 => ([], Reply.errRange startPort endPort)
  | left + 1 =>
    if free cur then ([cur], Reply.ok cur)
    else
      let p := scanFrom free (cur + 1) left
      (cur :: p.1, p.2)

/-- Automatic mode: scan `startPort..endPort`. -/
def autoScan (free : Nat → Bool) : List Nat × Reply :=
  scanFrom free startPort (endPort + 1 - startPort)

/-- Port negotiation of the handler: manual mode tries exactly the given
port; automatic mode scans the fixed range. -/
def negotiate (free : Nat → Bool) : Option Nat → List Nat × Reply
  | some p => if free p then ([p], Reply.ok p) else ([p], Reply.errPort p)
  | none => autoScan free

theorem scanFrom_ok {free : Nat → Bool} {m : Nat} (hm : free m = true) :
    ∀ left cur, cur ≤ m → m < cur + left →
    (∀ q, cur ≤ q → q < m → free q = false) →
    scanFrom free cur left = (List.range' cur (m - cur + 1), Reply.ok m) := by
  intro left
  induction left with
  | zero => intro cur h1 h2 _; omega
  | succ left ih =>
    intro cur h1 h2 hq
    by_cases hc : cur = m
    · subst hc
      simp [scanFrom, hm, List.range']
    · have hfc : free cur = false := hq cur (Nat.le_refl _) (by omega)
      simp only [scanFrom, hfc, Bool.false_eq_true, if_false]
      rw [ih (cur + 1) (by omega) (by omega) (fun q hq1 hq2 => hq q (by omega) hq2)]
      have hr : List.range' cur (m - cur + 1) =
          cur :: List.range' (cur + 1) (m - (cur + 1) + 1) := by
        rw [show m - cur + 1 = (m - (cur + 1) + 1) + 1 by omega, List.range'_succ]
      rw [hr]

theorem scanFrom_fail {free : Nat → Bool} :
    ∀ left cur, (∀ q, cur ≤ q → q < cur + left → free q = false) →
    scanFrom free cur left = (List.range' cur left,
      Reply.errRange startPort endPort) := by
  intro left
  induction left with
  | zero => intro cur _; simp [scanFrom]
  | succ left ih =>
    intro cur hq
    have hfc : free cur = false := hq cur (Nat.le_refl _) (by omega)
    simp only [scanFrom, hfc, Bool.false_eq_true, if_false]
    rw [ih (cur + 1) (fun q h1 h2 => hq q (by omega) (by omega)), List.range'_succ]

/-- C7.  Port negotiation: manual mode attempts exactly the given port and
fails on it without trying any other; automatic mode tries 8080..8090 in
ascending order, binds the first free port, attempting no later port; if the
whole range is occupied it fails naming exactly the range 8080-8090. -/
theorem port_negotiation (free : Nat → Bool) :
    (∀ p, negotiate free (some p) =
      ([p], if free p then Reply.ok p else Reply.errPort p)) ∧
    (∀ m, startPort ≤ m → m ≤ endPort → free m = true →
      (∀ q, startPort ≤ q → q < m → free q = false) →
      negotiate free none =
        (List.range' startPort (m - startPort + 1), Reply.ok m)) ∧
    ((∀ q, startPort ≤ q → q ≤ endPort → free q = false) →
      negotiate free none =
        (List.range' startPort (endPort + 1 - startPort),
         Reply.errRange startPort endPort)) := by
  refine ⟨fun p => by by_cases h : free p <;> simp [negotiate, h], ?_, ?_⟩
  · intro m h1 h2 hm hq
    exact scanFrom_ok hm _ startPort h1 (by simp [startPort, endPort] at h2 ⊢; omega) hq
  · intro hq
    exact scanFrom_fail _ startPort
      (fun q hq1 hq2 => hq q hq1 (by simp [startPort, endPort] at hq2 ⊢; omega))

/-- Witness for C7: ports 8080-8082 occupied and 8083 free binds 8083 after
attempting 8080, 8081, 8082, 8083; a fully occupied range fails naming
8080-8090; manual mode on an occupied port attempts only that port. -/
theorem port_negotiation_witness :
    ((fun p => decide (p = 8083)) 8083 = true) ∧
    negotiate (fun p => decide (p = 8083)) none =
      ([8080, 8081, 8082, 8083], Reply.ok 8083) ∧
    negotiate (fun _ => false) none =
      ([8080, 8081, 8082, 8083, 8084, 8085, 8086, 8087, 8088, 8089, 8090],
       Reply.errRange 8080 8090) ∧
    negotiate (fun _ => false) (some 9000) = ([9000], Reply.errPort 9000) := by
  refine ⟨by decide, ?_, ?_, ?_⟩
  · have h := (port_negotiation (fun p => decide (p = 8083))).2.1 8083
      (by decide) (by decide) (by decide)
      (fun q h1 h2 => by simp; omega)
    rw [h]
    decide
  · have h := (port_negotiation (fun _ => false)).2.2 (fun q h1 h2 => rfl)
    rw [h]
    decide
  · exact ((port_negotiation (fun _ => false)).1 9000).trans (by decide)

/-- The `start-local-server` handler: closes any previous bridge (so the
input listener is dropped unconditionally), pre-starts the engine via
`plantUmlService.start()` — which first runs `stop()` and then either throws
(jar missing) or spawns — and then negotiates a port.  Returns the service
state, the port of the listening socket left open (`none` when no socket
remains), and the single status reply. -/
def startLocalServer (jar : Bool) (free : Nat → Bool) (sp : Option Nat)
    (svc : SvcState) : SvcState × Option Nat × Reply :=
  let svc1 := stopFn svc
  if jar then
    let svc2 := { svc1 with running := true }
    match sp with
    | some p =>
      if free p then (svc2, some p, Reply.ok p)
      else (svc2, none, Reply.errPort p)
    | none =>
      match autoScan free with
      | (_, Reply.ok m) => (svc2, some m, Reply.ok m)
      | (_, r) => (svc2, none, r)
  else (svc1, none, Reply.errJar)

/-- Does the status reply report success? -/
def isOkReply : Reply → Bool
  | Reply.ok _ => true
  | _ => false

/-- C8 counterexample: manual mode on an occupied port with the jar present —
the handler reports failure, yet the pre-started engine process is left
running, contrary to the claim that no engine process remains. -/
theorem startup_failure_counterexample :
    (startLocalServer true (fun _ => false) (some 9000) initState).2.2 =
      Reply.errPort 9000 ∧
    (startLocalServer true (fun _ => false) (some 9000) initState).1.running =
      true := by
  exact ⟨rfl, rfl⟩

/-- C8 amended: every failing start of the local bridge reports its failure in
the single status reply and leaves no listening socket and no pending queue
state; the engine process is absent in the jar-missing case (where `start()`
throws before spawning) but in the port-failure cases the pre-started engine
process remains running — it is not rolled back. -/
theorem startup_failure_state (jar : Bool) (free : Nat → Bool) (sp : Option Nat)
    (svc : SvcState)
    (hfail : isOkReply (startLocalServer jar free sp svc).2.2 = false) :
    (startLocalServer jar free sp svc).2.1 = none ∧
    (startLocalServer jar free sp svc).1.running = jar ∧
    (startLocalServer jar free sp svc).1.queue = [] ∧
    (startLocalServer jar free sp svc).1.buffer = [] := by
  cases jar with
  | false => simp [startLocalServer, stopFn]
  | true =>
    cases sp with
    | some p =>
      by_cases hp : free p
      · rw [show startLocalServer true free (some p) svc =
          ({ stopFn svc with running := true }, some p, Reply.ok p) from by
            simp [startLocalServer, hp]] at hfail
        simp [isOkReply] at hfail
      · simp [startLocalServer, hp, stopFn]
    | none =>
      rcases hauto : autoScan free with ⟨att, r⟩
      cases r with
      | ok m =>
        rw [show startLocalServer true free none svc =
          ({ stopFn svc with running := true }, some m, Reply.ok m) from by
            simp [startLocalServer, hauto]] at hfail
        simp [isOkReply] at hfail
      | errPort p => simp [startLocalServer, hauto, stopFn]
      | errRange lo hi => simp [startLocalServer, hauto, stopFn]
      | errJar => simp [startLocalServer, hauto, stopFn]

/-- Witness for C8 (amended): automatic mode with the whole range occupied. -/
theorem startup_failure_state_witness :
    isOkReply (startLocalServer true (fun _ => false) none initState).2.2 =
      false ∧
    (startLocalServer true (fun _ => false) none initState).2.1 = none ∧
    (startLocalServer true (fun _ => false) none initState).1.running = true := by
  have h := startup_failure_state true (fun _ => false) none initState
    (by decide)
  exact ⟨by decide, h.1, h.2.1⟩

/-- One lowercase hexadecimal digit, as produced by the JavaScript
`Number.prototype.toString(16)` for a nibble. -/
def hexDigit (n : Nat) : Char :=
  Char.ofNat (if n < 10 then 48 + n else 87 + n)

/-- One byte of `encodePlantUML`: `data[i].toString(16)` left-padded with
`'0'` to two digits. -/
def byteToHex (b : Nat) : List Char :=
  [hexDigit (b / 16), hexDigit (b % 16)]

/-- The byte loop of `encodePlantUML` building `hexStr`. -/
def bytesToHex (bs : List Nat) : List Char :=
  (bs.map byteToHex).flatten

/-- Value of one hexadecimal digit, either case, as `Buffer.from(hex, 'hex')`
accepts. -/
def hexDigitVal (c : Char) : Option Nat :=
  if 48 ≤ c.toNat ∧ c.toNat ≤ 57 then some (c.toNat - 48)
  else if 97 ≤ c.toNat ∧ c.toNat ≤ 102 then some (c.toNat - 87)
  else if 65 ≤ c.toNat ∧ c.toNat ≤ 70 then some (c.toNat - 55)
  else none

/-- The hex-to-bytes parse of `Buffer.from(hex, 'hex')` on well-formed
input: consecutive digit pairs. -/
def hexToBytes : List Char → Option (List Nat)
  | [] => some []
  | c1 :: c2 :: rest =>
    match hexDigitVal c1, hexDigitVal c2, hexToBytes rest with
    | some hi, some lo, some bs => some ((16 * hi + lo) :: bs)
    | _, _, _ => none
  | [_] => none

/-- Is a byte a UTF-8 continuation byte (`10xxxxxx`)? -/
def isCont (b : Nat) : Bool :=
  decide (128 ≤ b) && decide (b < 192)

/-- UTF-8 encoding of one code point, as performed by `TextEncoder`. -/
def utf8EncodeChar (c : Nat) : List Nat :=
  if c < 128 then [c]
  else if c < 2048 then [192 + c / 64, 128 + c % 64]
  else if c < 65536 then [224 + c / 4096, 128 + c / 64 % 64, 128 + c % 64]
  else [240 + c / 262144, 128 + c / 4096 % 64, 128 + c / 64 % 64, 128 + c % 64]

/-- UTF-8 encoding of a character sequence (`TextEncoder.encode`). -/
def utf8Encode (s : List Char) : List Nat :=
  (s.map (fun c => utf8EncodeChar c.toNat)).flatten

/-- Decode one UTF-8-encoded code point from the front of a byte sequence,
returning it with the remaining bytes (strict decoding, as
`Buffer.prototype.toString('utf8')` performs on well-formed input). -/
def utf8DecodeOne : List Nat → Option (Nat × List Nat)
  | [] => none
  | b :: bs =>
    if b < 128 then some (b, bs)
    else if b < 192 then none
    else if b < 224 then
      match bs with
      | b1 :: rest =>
        if isCont b1 then some ((b - 192) * 64 + (b1 - 128), rest) else none
      | [] => none
    else if b < 240 then
      match bs with
      | b1 :: b2 :: rest =>
        if isCont b1 && isCont b2 then
          some ((b - 224) * 4096 + (b1 - 128) * 64 + (b2 - 128), rest)
        else none
      | _ => none
    else
      match bs with
      | b1 :: b2 :: b3 :: rest =>
        if isCont b1 && isCont b2 && isCont b3 then
          some ((b - 240) * 262144 + (b1 - 128) * 4096 + (b2 - 128) * 64 +
            (b3 - 128), rest)
        else none
      | _ => none

/-- Fuel-indexed UTF-8 decoding loop; one unit of fuel per decoded code
point, so the byte count always suffices. -/
def utf8DecodeGo : Nat → List Nat → Option (List Nat)
  | _, [] => some []
  | 0, _ :: _ => none
  | fuel + 1, b :: bs =>
    match utf8DecodeOne (b :: bs) with
    | some (c, rest) => (utf8DecodeGo fuel rest).map (fun l => c :: l)
    | none => none

/-- UTF-8 decoding of a byte sequence to code points. -/
def utf8Decode (bs : List Nat) : Option (List Nat) :=
  utf8DecodeGo bs.length bs

/-- The `~h<HEX>` path segment built by `encodePlantUML`. -/
def encodeSegment (s : String) : List Char :=
  '~' :: 'h' :: bytesToHex (utf8Encode s.data)

/-- The server-side decode of that segment in `createServerInstance`:
`parts[hexIndex].substring(2)` then `Buffer.from(hex, 'hex').toString('utf8')`. -/
def serverDecodeSegment (seg : List Char) : Option (List Char) :=
  match hexToBytes (seg.drop 2) with
  | some bs =>
    match utf8Decode bs with
    | some cps => some (cps.map Char.ofNat)
    | none => none
  | none => none

theorem char_toNat_lt (c : Char) : c.toNat < 1114112 := by
  rcases c.valid with h | ⟨h1, h2⟩
  · exact Nat.lt_trans h (by decide)
  · exact h2

theorem hexDigitVal_hexDigit {n : Nat} (h : n < 16) :
    hexDigitVal (hexDigit n) = some n := by
  interval_cases n <;> decide

theorem hexToBytes_bytesToHex {bs : List Nat} (h : ∀ b ∈ bs, b < 256) :
    hexToBytes (bytesToHex bs) = some bs := by
  induction bs with
  | nil => rfl
  | cons b bs ih =>
    have hb : b < 256 := h b (by simp)
    have hhi : b / 16 < 16 := by omega
    have hlo : b % 16 < 16 := by omega
    have hrec := ih (fun x hx => h x (by simp [hx]))
    rw [show bytesToHex (b :: bs) =
      hexDigit (b / 16) :: hexDigit (b % 16) :: bytesToHex bs from by
        simp [bytesToHex, byteToHex]]
    simp only [hexToBytes, hexDigitVal_hexDigit hhi, hexDigitVal_hexDigit hlo,
      hrec]
    have hval : 16 * (b / 16) + b % 16 = b := by omega
    rw [hval]

theorem utf8DecodeOne_consumes {l : List Nat} {c : Nat} {rest : List Nat}
    (h : utf8DecodeOne l = some (c, rest)) : rest.length < l.length := by
  match l with
  | [] => simp [utf8DecodeOne] at h
  | b :: bs =>
    simp only [utf8DecodeOne] at h
    split at h
    · simp only [Option.some.injEq, Prod.mk.injEq] at h
      rw [← h.2]
      simp
    · split at h
      · exact absurd h (by simp)
      · split at h
        · match bs with
          | [] => exact absurd h (by simp)
          | b1 :: rest1 =>
            simp only at h
            split at h
            · simp only [Option.some.injEq, Prod.mk.injEq] at h
              rw [← h.2]
              simp
              omega
            · exact absurd h (by simp)
        · split at h
          · match bs with
            | [] => exact absurd h (by simp)
            | [b1] => exact absurd h (by simp)
            | b1 :: b2 :: rest1 =>
              simp only at h
              split at h
              · simp only [Option.some.injEq, Prod.mk.injEq] at h
                rw [← h.2]
                simp
                omega
              · exact absurd h (by simp)
          · match bs with
            | [] => exact absurd h (by simp)
            | [b1] => exact absurd h (by simp)
            | [b1, b2] => exact absurd h (by simp)
            | b1 :: b2 :: b3 :: rest1 =>
              simp only at h
              split at h
              · simp only [Option.some.injEq, Prod.mk.injEq] at h
                rw [← h.2]
                simp
                omega
              · exact absurd h (by simp)

theorem utf8DecodeGo_fuel {i j : Nat} {bs : List Nat}
    (h1 : bs.length ≤ i) (h2 : bs.length ≤ j) :
    utf8DecodeGo i bs = utf8DecodeGo j bs := by
  induction i generalizing j bs with
  | zero =>
    have hb : bs = [] := List.length_eq_zero.mp (Nat.le_zero.mp h1)
    subst hb
    cases j <;> rfl
  | succ i ih =>
    match bs with
    | [] => cases j <;> rfl
    | b :: bs =>
      cases j with
      | zero => simp at h2
      | succ j =>
        simp only [utf8DecodeGo]
        cases hone : utf8DecodeOne (b :: bs) with
        | none => rfl
        | some p =>
          obtain ⟨c, rest⟩ := p
          have hlt := utf8DecodeOne_consumes hone
          simp only [List.length_cons] at hlt h1 h2
          simp only
          rw [ih (j := j) (by omega) (by omega)]

theorem utf8Decode_of_one {l : List Nat} {c : Nat} {rest : List Nat}
    (h : utf8DecodeOne l = some (c, rest)) :
    utf8Decode l = (utf8Decode rest).map (fun x => c :: x) := by
  have hlt := utf8DecodeOne_consumes h
  match l with
  | [] => simp [utf8DecodeOne] at h
  | b :: bs =>
    rw [utf8Decode, utf8Decode]
    have hlen : (b :: bs).length = bs.length + 1 := rfl
    rw [hlen]
    simp only [utf8DecodeGo, h]
    rw [utf8DecodeGo_fuel (i := bs.length) (j := rest.length)
      (by simp at hlt; omega) (Nat.le_refl _)]

theorem utf8DecodeOne_encodeChar (c : Nat) (bs : List Nat) :
    utf8DecodeOne (utf8EncodeChar c ++ bs) = some (c, bs) := by
  by_cases h1 : c < 128
  · rw [show utf8EncodeChar c = [c] from by simp [utf8EncodeChar, h1],
      List.singleton_append]
    simp only [utf8DecodeOne]
    rw [if_pos h1]
  · by_cases h2 : c < 2048
    · have e4 : isCont (128 + c % 64) = true := by
        simp only [isCont, Bool.and_eq_true, decide_eq_true_eq]
        omega
      rw [show utf8EncodeChar c = [192 + c / 64, 128 + c % 64] from by
        simp [utf8EncodeChar, h1, h2], List.cons_append, List.singleton_append]
      simp only [utf8DecodeOne]
      rw [if_neg (by omega), if_neg (by omega), if_pos (by omega)]
      simp only [e4, if_true]
      have ex : (192 + c / 64 - 192) * 64 + (128 + c % 64 - 128) = c := by
        omega
      rw [ex]
    · by_cases h3 : c < 65536
      · have e5 : (isCont (128 + c / 64 % 64) && isCont (128 + c % 64)) = true := by
          simp only [isCont, Bool.and_eq_true, decide_eq_true_eq]
          omega
        rw [show utf8EncodeChar c =
          [224 + c / 4096, 128 + c / 64 % 64, 128 + c % 64] from by
            simp [utf8EncodeChar, h1, h2, h3], List.cons_append,
          List.cons_append, List.singleton_append]
        simp only [utf8DecodeOne]
        rw [if_neg (by omega), if_neg (by omega), if_neg (by omega),
          if_pos (by omega)]
        simp only [e5, if_true]
        have ex : (224 + c / 4096 - 224) * 4096 + (128 + c / 64 % 64 - 128) * 64
            + (128 + c % 64 - 128) = c := by
          omega
        rw [ex]
      · have e5 : (isCont (128 + c / 4096 % 64) && isCont (128 + c / 64 % 64) &&
            isCont (128 + c % 64)) = true := by
          simp only [isCont, Bool.and_eq_true, decide_eq_true_eq]
          omega
        rw [show utf8EncodeChar c = [240 + c / 262144, 128 + c / 4096 % 64,
            128 + c / 64 % 64, 128 + c % 64] from by
            simp [utf8EncodeChar, h1, h2, h3], List.cons_append,
          List.cons_append, List.cons_append, List.singleton_append]
        simp only [utf8DecodeOne]
        rw [if_neg (by omega), if_neg (by omega), if_neg (by omega),
          if_neg (by omega)]
        simp only [e5, if_true]
        have ex : (240 + c / 262144 - 240) * 262144 +
            (128 + c / 4096 % 64 - 128) * 4096 +
            (128 + c / 64 % 64 - 128) * 64 + (128 + c % 64 - 128) = c := by
          omega
        rw [ex]

theorem utf8Decode_encodeChar_append (c : Nat) (bs : List Nat) :
    utf8Decode (utf8EncodeChar c ++ bs) =
      (utf8Decode bs).map (fun l => c :: l) :=
  utf8Decode_of_one (utf8DecodeOne_encodeChar c bs)

theorem utf8Decode_utf8Encode (s : List Char) :
    utf8Decode (utf8Encode s) = some (s.map Char.toNat) := by
  induction s with
  | nil => rfl
  | cons c cs ih =>
    rw [show utf8Encode (c :: cs) = utf8EncodeChar c.toNat ++ utf8Encode cs
      from by simp [utf8Encode], utf8Decode_encodeChar_append, ih]
    rfl

theorem utf8EncodeChar_bytes_lt {c : Nat} (hc : c < 1114112) :
    ∀ b ∈ utf8EncodeChar c, b < 256 := by
  intro b hb
  by_cases h1 : c < 128 <;> by_cases h2 : c < 2048 <;> by_cases h3 : c < 65536 <;>
    simp [utf8EncodeChar, h1, h2, h3] at hb <;> omega

theorem utf8Encode_bytes_lt (s : List Char) : ∀ b ∈ utf8Encode s, b < 256 := by
  intro b hb
  simp only [utf8Encode, List.mem_flatten, List.mem_map] at hb
  obtain ⟨l, ⟨c, _, hl⟩, hbl⟩ := hb
  exact utf8EncodeChar_bytes_lt (char_toNat_lt c) b (hl ▸ hbl)

/-- C9.  Hex decode round-trip: for every string, building the `~h`
hexadecimal path segment with `encodePlantUML`'s encoding and decoding it on
the server side (strip the two-character prefix, parse the hex digit pairs to
bytes, decode the bytes as UTF-8) yields exactly the original string's
characters. -/
theorem hex_decode_roundtrip (s : String) :
    serverDecodeSegment (encodeSegment s) = some s.data := by
  have hdrop : (encodeSegment s).drop 2 = bytesToHex (utf8Encode s.data) := rfl
  rw [serverDecodeSegment, hdrop,
    hexToBytes_bytesToHex (utf8Encode_bytes_lt s.data)]
  simp only []
  rw [utf8Decode_utf8Encode]
  simp only [Option.some.injEq, ← List.map_map]
  rw [show (List.map Char.ofNat (List.map Char.toNat s.data)) =
    List.map (fun c => Char.ofNat c.toNat) s.data from by
      rw [List.map_map]; rfl]
  simp

end PlantUML
